import Mathlib

/-!
Verification of the sytha-ai retrieval-augmented legal assistant.

The TypeScript sources are shallowly embedded: JavaScript strings become
`List Char`, external services (the OpenAI embedding and completion APIs and
the Pinecone vector index) become oracle parameters, thrown exceptions become
`Except`, and every external call a code path performs is recorded in an
explicit call list so that "performs no external call" claims are statable.
-/

namespace Sytha

/-- JavaScript strings are modelled as lists of characters. -/
abbrev Str := List Char

/-- The core of the JavaScript whitespace class used by `String.prototype.trim`
and by `\s` in the regexes of the sources: space, tab, newline, carriage
return, vertical tab and form feed. -/
def isWS (c : Char) : Bool :=
  c == ' ' || c == '\t' || c == '\n' || c == '\r' || c == '\x0b' || c == '\x0c'

/-- Negation of `isWS`, used to talk about the non-whitespace content of a
string. -/
def nWS (c : Char) : Bool := !(isWS c)

/-- `text.trim()`: remove trailing whitespace (via the reversal) and then
leading whitespace.  The order in which the two ends are cleaned is
immaterial for JavaScript `trim`. -/
def trim (l : Str) : Str :=
  ((l.reverse.dropWhile isWS).reverse).dropWhile isWS

/-- Whether a string starts with a whitespace character. -/
def headWS : Str → Bool
  | [] => false
  | c :: _ => isWS c

/-- `src/lib/upload.ts` `chunkText`, written with an explicit iteration bound
(`fuel`): the source's `while (start < text.length)` loop advances by
`maxChars` characters per round, so `text.length` rounds always suffice when
`maxChars > 0` (for `maxChars = 0` the source loop would never terminate;
that regime is outside every claim).  Each window of at most `maxChars`
characters is trimmed and kept only if non-empty. -/
def chunkTextF (maxChars : Nat) : Nat → Str → List Str
  | 0, _ => []
  | _ + 1, [] => []
  | fuel + 1, a :: as =>
    let c := trim ((a :: as).take maxChars)
    let rest := chunkTextF maxChars fuel ((a :: as).drop maxChars)
    if c = [] then rest else c :: rest

/-- `src/lib/upload.ts` lines 11-25: the fixed-window chunker. -/
def chunkText (text : Str) (maxChars : Nat) : List Str :=
  chunkTextF maxChars text.length text

/-- JavaScript `text.split(" ")`: split on every single space character,
keeping empty segments (so `"".split(" ") = [""]` and
`"a  b".split(" ") = ["a", "", "b"]`). -/
def splitOnSpace : Str → List Str
  | [] => [[]]
  | c :: rest =>
    if c = ' ' then [] :: splitOnSpace rest
    else
      match splitOnSpace rest with
      | [] => [[c]]
      | w :: ws => (c :: w) :: ws

/-- Joining a list of words with single spaces (proof-side inverse of
`splitOnSpace`, used to describe the accumulator of the word-aware chunker). -/
def joinWords : List Str → Str
  | [] => []
  | [w] => w
  | w :: ws => w ++ ' ' :: joinWords ws

/-- A word is well-behaved for the word-aware chunker when it is non-empty,
contains no space, and neither starts nor ends with (non-space) whitespace
such as a newline or a tab. -/
def goodWord (w : Str) : Prop :=
  w ≠ [] ∧ ' ' ∉ w ∧ headWS w = false ∧ headWS w.reverse = false

instance goodWordDecidable (w : Str) : Decidable (goodWord w) := by
  unfold goodWord
  exact inferInstance

/-- Whether the first string is a leading segment of the second. -/
def startsWithB : Str → Str → Bool
  | [], _ => true
  | _ :: _, [] => false
  | a :: xs, b :: ys => a == b && startsWithB xs ys

/-- Whether the first string occurs contiguously somewhere inside the second
(the substring test, as in JavaScript `includes`). -/
def occursIn (needle : Str) : Str → Bool
  | [] => startsWithB needle []
  | b :: ys => startsWithB needle (b :: ys) || occursIn needle ys

/-- The word loop shared by `chunkAndPrepareDocuments`
(`src/unnamed/part_001` lines 120-158) and `chunkLegalSections`
(`src/scripts/index-legal-docs.ts` lines 134-174): accumulate space-joined
words into `cur`; when appending the next word would exceed `chunkSize` and
the accumulator is non-empty, flush `cur.trim()` and restart from that word;
at the end flush the final accumulation if it is non-empty after trimming.
Only the produced chunk texts are modelled (ids and metadata of the source
are bookkeeping attached to exactly these texts). -/
def wordChunkLoop (chunkSize : Nat) : List Str → Str → List Str
  | [], cur => if trim cur = [] then [] else [trim cur]
  | w :: ws, cur =>
    if chunkSize < cur.length + 1 + w.length ∧ 0 < cur.length then
      trim cur :: wordChunkLoop chunkSize ws w
    else
      wordChunkLoop chunkSize ws (if cur = [] then w else cur ++ ' ' :: w)

/-- The per-record chunking of the two word-aware call sites: a text that fits
in `chunkSize` becomes a single chunk, otherwise the word loop splits it. -/
def chunkSectionText (fullText : Str) (chunkSize : Nat) : List Str :=
  if fullText.length ≤ chunkSize then [fullText]
  else wordChunkLoop chunkSize (splitOnSpace fullText) []

/-- A structured legal-section record (`LegalSection` in
`src/unnamed/part_001` and `src/scripts/index-legal-docs.ts`).  The `section`
field is renamed `sectionLabel` because `section` is a Lean keyword. -/
structure LegalSection where
  id : Str
  act : Str
  sectionLabel : Str
  title : Str
  description : Str
  text : Option Str
deriving DecidableEq

/-- The full text assembled from a record before chunking:
`act - Section <section>: <title>\n\n<description>\n\n<text or "">`. -/
def buildFullText (s : LegalSection) : Str :=
  s.act ++ (" - Section ").toList ++ s.sectionLabel ++ (": ").toList ++ s.title
    ++ ("\n\n").toList ++ s.description ++ ("\n\n").toList ++ (s.text.getD [])

/-- `chunkAndPrepareDocuments` of `src/unnamed/part_001` (chunk texts only;
this variant trims the assembled full text before measuring it). -/
def chunkAndPrepareDocuments (sections : List LegalSection) (chunkSize : Nat) : List Str :=
  (sections.map (fun s => chunkSectionText (trim (buildFullText s)) chunkSize)).flatten

/-- `chunkLegalSections` of `src/scripts/index-legal-docs.ts` (chunk texts
only; this variant does not trim the assembled full text). -/
def chunkLegalSections (sections : List LegalSection) (chunkSize : Nat) : List Str :=
  (sections.map (fun s => chunkSectionText (buildFullText s) chunkSize)).flatten

/-- The kinds of external calls the code paths can perform: an embedding
request, a vector-index query, a vector-index stats request, a vector-index
upsert, and a chat completion request. -/
inductive ExtCall
  | embed
  | query
  | stats
  | upsert
  | completion (userPrompt : Str)
deriving DecidableEq

/-- The `for (let i = 0; i < xs.length; i += batchSize)` slicing shared by
the three bulk-ingestion loops, with an explicit iteration bound: `xs.length`
rounds always suffice when `batchSize > 0` (at `batchSize = 0` the source
loops would never advance). -/
def toBatchesF (k : Nat) : Nat → List α → List (List α)
  | 0, _ => []
  | _ + 1, [] => []
  | fuel + 1, a :: as => ((a :: as).take k) :: toBatchesF k fuel ((a :: as).drop k)

/-- Slice a list into consecutive batches of `k` elements (last batch may be
shorter). -/
def toBatches (k : Nat) (l : List α) : List (List α) := toBatchesF k l.length l

/-- A document prepared for upload (`UploadedDoc` in `src/lib/upload.ts`).
The opaque `metadata` record is omitted: no claim observes it. -/
structure UploadedDoc where
  id : Str
  text : Str
deriving DecidableEq

/-- The result of `uploadDocumentsToPinecone`: the number of uploaded chunks
and the optional list of recorded batch failures (the source records one
error string per failed batch, identified here by its 1-based batch number). -/
structure UploadResult where
  uploadedChunks : Nat
  errors : Option (List Nat)
deriving DecidableEq

/-- The batch loop of `uploadDocumentsToPinecone` (`src/lib/upload.ts` lines
60-95).  `fe` and `fu` are oracles telling whether the embedding call
(respectively the upsert call) of the batch with the given 0-based ordinal
throws.  Returns the accumulated uploaded count, the recorded 1-based numbers
of the failed batches, and the external calls performed (a batch whose
embedding throws never reaches its upsert call). -/
def uploadLoop (fe fu : Nat → Bool) : Nat → List (List α) → Nat × List Nat × List ExtCall
  | _, [] => (0, [], [])
  | bn, b :: bs =>
    let rest := uploadLoop fe fu (bn + 1) bs
    if fe bn then (rest.1, (bn + 1) :: rest.2.1, ExtCall.embed :: rest.2.2)
    else if fu bn then
      (rest.1, (bn + 1) :: rest.2.1, ExtCall.embed :: ExtCall.upsert :: rest.2.2)
    else (b.length + rest.1, rest.2.1, ExtCall.embed :: ExtCall.upsert :: rest.2.2)

/-- `uploadDocumentsToPinecone` of `src/lib/upload.ts` lines 44-107: an empty
input returns immediately with zero uploads, no `errors` field and no
external call; otherwise the documents are processed in batches, each failure
is recorded and the loop continues, and the `errors` field is present exactly
when the recorded list is non-empty.  The source fixes `batchSize = 50`; it
is a parameter here so the loop can be exercised on small inputs. -/
def uploadDocumentsToPinecone (fe fu : Nat → Bool) (docs : List UploadedDoc)
    (batchSize : Nat) : UploadResult × List ExtCall :=
  if docs = [] then (⟨0, none⟩, [])
  else
    (⟨(uploadLoop fe fu 0 (toBatches batchSize docs)).1,
        if (uploadLoop fe fu 0 (toBatches batchSize docs)).2.1 = [] then none
        else some (uploadLoop fe fu 0 (toBatches batchSize docs)).2.1⟩,
      (uploadLoop fe fu 0 (toBatches batchSize docs)).2.2)

/-- The batch loop of the indexing route `POST` (`src/unnamed/part_001` lines
210-239): a failing batch is logged and skipped and `totalIndexed`
accumulates the sizes of the successful batches only. -/
def indexLoopRoute (fe fu : Nat → Bool) : Nat → List (List α) → Nat
  | _, [] => 0
  | bn, b :: bs =>
    let rest := indexLoopRoute fe fu (bn + 1) bs
    if fe bn || fu bn then rest else b.length + rest

/-- `totalIndexed` as computed by the indexing route of
`src/unnamed/part_001` over the batches of `chunks`. -/
def indexChunksRoute (fe fu : Nat → Bool) (chunks : List α) (batchSize : Nat) : Nat :=
  indexLoopRoute fe fu 0 (toBatches batchSize chunks)

/-- The batch loop of `indexToPinecone` in `src/scripts/index-legal-docs.ts`
lines 186-214: the `catch` block logs the error and then rethrows it
(`throw error`), so the first failing batch aborts the whole loop.  The
thrown error is modelled as `Except.error` carrying the 0-based ordinal of
the failing batch. -/
def indexLoopScript (fe fu : Nat → Bool) : Nat → List (List α) → Except Nat Nat
  | _, [] => .ok 0
  | bn, b :: bs =>
    if fe bn || fu bn then .error bn
    else (indexLoopScript fe fu (bn + 1) bs).map (fun t => b.length + t)

/-- `indexToPinecone` of `src/scripts/index-legal-docs.ts` over the batches
of `chunks`. -/
def indexToPineconeScript (fe fu : Nat → Bool) (chunks : List α) (batchSize : Nat) :
    Except Nat Nat :=
  indexLoopScript fe fu 0 (toBatches batchSize chunks)

/-- Specification-side count: the total size of the batches (numbered from
`n`) whose embedding and upsert calls both succeed. -/
def succSumFrom (fe fu : Nat → Bool) : Nat → List (List α) → Nat
  | _, [] => 0
  | n, b :: bs => (if fe n || fu n then 0 else b.length) + succSumFrom fe fu (n + 1) bs

/-- The total size of the successful batches of `chunks`. -/
def successfulBatchSum (fe fu : Nat → Bool) (chunks : List α) (k : Nat) : Nat :=
  succSumFrom fe fu 0 (toBatches k chunks)

/-- The 0-based ordinal of the first failing batch (numbering from `n`), if
any. -/
def firstFailFrom (fe fu : Nat → Bool) : Nat → List (List α) → Option Nat
  | _, [] => none
  | n, _ :: bs => if fe n || fu n then some n else firstFailFrom fe fu (n + 1) bs

instance exceptDecidableEq {ε α : Type} [DecidableEq ε] [DecidableEq α] :
    DecidableEq (Except ε α) := fun x y =>
  match x, y with
  | .error a, .error b =>
    if h : a = b then isTrue (congrArg Except.error h)
    else isFalse (fun hc => h (Except.error.inj hc))
  | .error _, .ok _ => isFalse (fun hc => Except.noConfusion hc)
  | .ok _, .error _ => isFalse (fun hc => Except.noConfusion hc)
  | .ok a, .ok b =>
    if h : a = b then isTrue (congrArg Except.ok h)
    else isFalse (fun hc => h (Except.ok.inj hc))

/-- An embedding vector; the numeric contents never matter to the claims. -/
abbrev Vec := List Int

/-- `embedTexts` of `src/lib/openai.ts` lines 34-65: the empty input returns
`[]` before any client call; otherwise one embedding request is issued, which
either throws (`embedThrows`) or returns the external service's response
`svc texts`. -/
def embedTexts (embedThrows : Bool) (svc : List Str → List Vec) (texts : List Str) :
    Except Unit (List Vec) × List ExtCall :=
  if texts = [] then (.ok [], [])
  else if embedThrows then (.error (), [ExtCall.embed])
  else (.ok (svc texts), [ExtCall.embed])

/-- Vector metadata as read back by the retriever (`src/unnamed/part_003`
lines 100-119).  Absent fields are `none`; the `section` field is renamed
`sectionLabel` because `section` is a Lean keyword. -/
structure MatchMeta where
  id : Option Str := none
  act : Option Str := none
  sectionLabel : Option Str := none
  title : Option Str := none
  text : Option Str := none
  content : Option Str := none
  body : Option Str := none
  source : Option Str := none
deriving DecidableEq

/-- A match returned by the Pinecone query. -/
structure PMatch where
  id : Str
  score : Option Int := none
  metadata : Option MatchMeta := none
deriving DecidableEq

/-- `IndexedDoc` of `src/unnamed/part_003`. -/
structure IndexedDoc where
  id : Str
  act : Str
  sectionLabel : Option Str
  title : Option Str
  text : Str
  source : Str
  score : Option Int
deriving DecidableEq

/-- JavaScript `a || b` for strings: `a` unless it is empty (falsy). -/
def jsOr (a b : Str) : Str := if a = [] then b else a

/-- A string field read from metadata: `undefined` becomes the empty string
(which is falsy, like `undefined`, for the `||` chains of the source). -/
def orEmpty (o : Option Str) : Str := o.getD []

/-- The per-match mapping of `retrieveWithPinecone`
(`src/unnamed/part_003` lines 100-119): text falls back through
`text || content || body`, the act defaults to `"Unknown act"`, the source to
`"pinecone"`, and the id to the match id. -/
def docOfMatch (m : PMatch) : IndexedDoc :=
  { id := jsOr (orEmpty (m.metadata.getD {}).id) m.id,
    act := jsOr (orEmpty (m.metadata.getD {}).act) (("Unknown act").toList),
    sectionLabel := (m.metadata.getD {}).sectionLabel,
    title := (m.metadata.getD {}).title,
    text := jsOr (orEmpty (m.metadata.getD {}).text)
      (jsOr (orEmpty (m.metadata.getD {}).content) (orEmpty (m.metadata.getD {}).body)),
    source := jsOr (orEmpty (m.metadata.getD {}).source) (("pinecone").toList),
    score := m.score }

/-- The state of the external world as seen by the answer pipeline: whether
Pinecone is configured, and oracles for the three external services. -/
structure RagEnv where
  pineconeConfigured : Bool
  embedThrows : Bool := false
  embedSvc : List Str → List Vec := fun _ => []
  queryThrows : Bool := false
  queryMatches : List PMatch := []
  completionThrows : Bool := false
  completionContent : Option Str := none

/-- `retrieveWithPinecone` of `src/unnamed/part_003` lines 63-128: embed the
question (one embedding call); on a thrown error or a missing first embedding
return no documents; otherwise query the index (one query call — the `limit`
argument is the `topK` forwarded to the external service, whose response is
the oracle `queryMatches`), map each match through `docOfMatch` and keep the
documents with non-empty text.  Every failure is caught and yields the empty
document list. -/
def retrieveWithPinecone (env : RagEnv) (question : Str) (limit : Nat) :
    List IndexedDoc × List ExtCall :=
  match embedTexts env.embedThrows env.embedSvc [question] with
  | (.error _, calls) => ([], calls)
  | (.ok embs, calls) =>
    match embs.head? with
    | none => ([], calls)
    | some _ =>
      if env.queryThrows then ([], calls ++ [ExtCall.query])
      else
        ((env.queryMatches.map docOfMatch).filter (fun d => !d.text.isEmpty),
          calls ++ [ExtCall.query])

/-- The context-block assembly of `answerLegalQuestion`
(`src/unnamed/part_003` lines 166-173): the header joins the act, the
optional `"Section " ++ section` and the optional title with `" - "` (falsy
parts dropped); each block is the header, a blank line and the full document
text; blocks are joined with a `"---"` separator line. -/
def assembleContext (docs : List IndexedDoc) : Str :=
  List.intercalate (("\n\n---\n\n").toList)
    (docs.map (fun doc =>
      List.intercalate ((" - ").toList)
        (([if doc.act = [] then none else some doc.act,
            (match doc.sectionLabel with
             | some s => if s = [] then none else some ((("Section ").toList) ++ s)
             | none => none),
            (match doc.title with
             | some t => if t = [] then none else some t
             | none => none)] : List (Option Str)).filterMap id)
        ++ ("\n\n").toList ++ doc.text))

/-- The fixed no-match answer of `answerLegalQuestion`
(`src/unnamed/part_003` lines 157-160). -/
def couldNotFindMsg : Str :=
  ("I could not find any matching sections in the vector database for this question. Please try rephrasing or check that the index is populated.").toList

/-- The fixed degraded-mode answer when Pinecone is not configured
(`src/unnamed/part_003` lines 146-150). -/
def notConfiguredMsg : Str :=
  ("The vector database is not configured on the server. Please set PINECONE_API_KEY and PINECONE_INDEX in the environment, or use the manual upload/indexing pipeline.").toList

/-- The fixed fallback answer when the completion reply is empty
(`src/unnamed/part_003` lines 220-224). -/
def fallbackAnswerMsg : Str :=
  ("I was unable to generate a detailed answer from the dataset and model. Please try asking your question again with more context.").toList

/-- `SourceSnippet` of `src/unnamed/part_003`. -/
structure SourceSnippet where
  id : Str
  act : Str
  sectionLabel : Option Str
  title : Option Str
  snippet : Str
deriving DecidableEq

/-- `ChatResult` of `src/unnamed/part_003`. -/
structure ChatResult where
  answer : Str
  sources : List SourceSnippet
deriving DecidableEq

/-- The errors `answerLegalQuestion` can throw: the invalid-input error for
an empty question, and a completion-service failure propagated as a hard
error. -/
inductive RagErr
  | emptyQuestion
  | completionFailed
deriving DecidableEq

/-- `answerLegalQuestion` of `src/unnamed/part_003` lines 130-230.  An empty
question after trimming throws before any external call.  Unconfigured
Pinecone yields the fixed degraded-mode answer with no call.  Otherwise
retrieval runs with `topK = 8`; no usable document yields the fixed
could-not-find answer; otherwise the prompt built from the assembled context
is sent to the completion service (recorded in the call list), whose thrown
error propagates and whose trimmed reply (or the fixed fallback when empty)
is returned along with the sources, each snippet truncated to 280
characters. -/
def answerLegalQuestion (env : RagEnv) (question : Str) :
    Except RagErr ChatResult × List ExtCall :=
  if trim question = [] then (.error RagErr.emptyQuestion, [])
  else if env.pineconeConfigured = false then (.ok ⟨notConfiguredMsg, []⟩, [])
  else
    match retrieveWithPinecone env (trim question) 8 with
    | (topDocs, calls1) =>
      if topDocs = [] then (.ok ⟨couldNotFindMsg, []⟩, calls1)
      else
        if env.completionThrows then
          (.error RagErr.completionFailed,
            calls1 ++ [ExtCall.completion
              ((("User question: ").toList ++ trim question
                ++ ("\n\nCONTEXT FROM LEGAL SECTIONS:\n").toList
                ++ assembleContext topDocs))])
        else
          (.ok ⟨jsOr (trim (orEmpty env.completionContent)) fallbackAnswerMsg,
              topDocs.map (fun doc =>
                ⟨doc.id, doc.act, doc.sectionLabel, doc.title, doc.text.take 280⟩)⟩,
            calls1 ++ [ExtCall.completion
              ((("User question: ").toList ++ trim question
                ++ ("\n\nCONTEXT FROM LEGAL SECTIONS:\n").toList
                ++ assembleContext topDocs))])

/-- The outcome of a chat route request: a 200 response carrying the result,
the 400 invalid-input response, or the 500 error response. -/
inductive RouteOutcome
  | ok (result : ChatResult)
  | badRequest
  | serverError
deriving DecidableEq

/-- The environment seen by the chat route: whether `validateEnvironment`
succeeds, and the answer pipeline's environment. -/
structure RouteEnv where
  envValid : Bool
  rag : RagEnv

/-- The calls performed by `initLegalIndex` (`src/unnamed/part_003` lines
28-61) when invoked from the route's `ensureInitialized`: one stats request
when Pinecone is configured (its failure is caught and logged), none
otherwise.  The returned status record is logged and discarded by the
route. -/
def initLegalIndexCalls (env : RagEnv) : List ExtCall :=
  if env.pineconeConfigured then [ExtCall.stats] else []

/-- The body of the chat route `POST` after initialisation
(`src/app/api/chat/route.ts` lines 42-67): an empty or whitespace-only
question is rejected with 400; otherwise `answerLegalQuestion` runs and a
thrown error becomes the 500 response. -/
def chatRouteBody (env : RouteEnv) (question : Str) (initCalls : List ExtCall) :
    RouteOutcome × List ExtCall × Bool :=
  if question = [] ∨ trim question = [] then (.badRequest, initCalls, true)
  else
    match answerLegalQuestion env.rag question with
    | (.ok r, cs) => (.ok r, initCalls ++ cs, true)
    | (.error _, cs) => (.serverError, initCalls ++ cs, true)

/-- The chat route `POST` of `src/app/api/chat/route.ts` lines 11-86:
`ensureInitialized` runs before the body is read; with the process latch
unset it validates the environment (invalid → thrown error → 500 response,
latch left unset) and initialises the index (one stats call when Pinecone is
configured) before the question is examined.  The final component is the
latch value after the request. -/
def chatRoutePOST (initialized : Bool) (env : RouteEnv) (question : Str) :
    RouteOutcome × List ExtCall × Bool :=
  if initialized then chatRouteBody env question []
  else if env.envValid = false then (.serverError, [], false)
  else chatRouteBody env question (initLegalIndexCalls env.rag)

/-- The concrete match of Claim C7's scenario: metadata act `"IPC"`, section
`"378"`, title `"Theft"` and the theft definition text. -/
def theftMatch : PMatch :=
  { id := ("ipc_378").toList,
    metadata := some
      { act := some (("IPC").toList),
        sectionLabel := some (("378").toList),
        title := some (("Theft").toList),
        text := some (("Whoever, intending to take dishonestly...").toList) } }

/-- Scanner for the lazy group of the bold regex of `stripEmphasis`
(`src/components/Chat.tsx` line 21): having consumed the opening `**`, read
the shortest non-empty run of non-newline characters (accumulated reversed in
`acc`) that is followed by a closing `**`; return the run and the remainder
after the closing marker, or `none` when no such closing exists. -/
def scanBoldClose (acc : Str) : Str → Option (Str × Str)
  | [] => none
  | c :: rest =>
    if acc ≠ [] ∧ c = '*' ∧ rest.head? = some '*' then some (acc.reverse, rest.tail)
    else if c = '\n' ∨ c = '\r' then none
    else scanBoldClose (c :: acc) rest

/-- The global bold-marker replacement of `stripEmphasis`: scan left to
right; at each `**` try the lazy match and splice in the inner text,
otherwise advance one character.  `fuel` bounds the iterations; the input
length always suffices because every step consumes at least one character. -/
def stripBoldF : Nat → Str → Str
  | 0, l => l
  | _ + 1, [] => []
  | fuel + 1, '*' :: '*' :: rest =>
    (match scanBoldClose [] rest with
     | some (x, after) => x ++ stripBoldF fuel after
     | none => '*' :: stripBoldF fuel ('*' :: rest))
  | fuel + 1, c :: rest => c :: stripBoldF fuel rest

/-- `text.replace(/\*\*(.+?)\*\*/g, "$1")`. -/
def stripBold (l : Str) : Str := stripBoldF l.length l

/-- Scanner for the lazy group of the italic regex of `stripEmphasis`: the
closing marker is a single `*`. -/
def scanItalClose (acc : Str) : Str → Option (Str × Str)
  | [] => none
  | c :: rest =>
    if acc ≠ [] ∧ c = '*' then some (acc.reverse, rest)
    else if c = '\n' ∨ c = '\r' then none
    else scanItalClose (c :: acc) rest

/-- The global italic-marker replacement of `stripEmphasis`. -/
def stripItalF : Nat → Str → Str
  | 0, l => l
  | _ + 1, [] => []
  | fuel + 1, '*' :: rest =>
    (match scanItalClose [] rest with
     | some (x, after) => x ++ stripItalF fuel after
     | none => '*' :: stripItalF fuel rest)
  | fuel + 1, c :: rest => c :: stripItalF fuel rest

/-- `text.replace(/\*(.+?)\*/g, "$1")`. -/
def stripItal (l : Str) : Str := stripItalF l.length l

/-- `stripEmphasis` of `src/components/Chat.tsx` lines 19-22: remove the bold
markers, then the italic markers. -/
def stripEmphasis (s : Str) : Str := stripItal (stripBold s)

/-- `text.split(/\r?\n/)` as used by `parseAssistantContent`. -/
def splitLines : Str → List Str
  | [] => [[]]
  | '\r' :: '\n' :: rest => [] :: splitLines rest
  | '\n' :: rest => [] :: splitLines rest
  | c :: rest =>
    match splitLines rest with
    | [] => [[c]]
    | w :: ws => (c :: w) :: ws

/-- The heading test `/^(#{1,6})\s+(.*)$/` of `parseAssistantContent`:
one to six leading `#` followed by at least one whitespace character; the
returned group is the remainder after the whitespace run. -/
def headingMatch (l : Str) : Option Str :=
  if 1 ≤ (l.takeWhile (fun c => c == '#')).length ∧
      (l.takeWhile (fun c => c == '#')).length ≤ 6 ∧
      headWS (l.drop (l.takeWhile (fun c => c == '#')).length) then
    some ((l.drop (l.takeWhile (fun c => c == '#')).length).dropWhile isWS)
  else none

/-- The bullet test `/^[-*+]\s+(.*)$/`. -/
def bulletMatch (l : Str) : Option Str :=
  match l with
  | c :: rest =>
    if (c = '-' ∨ c = '*' ∨ c = '+') ∧ headWS rest then some (rest.dropWhile isWS)
    else none
  | [] => none

/-- The ordered-list test `/^\d+\.\s+(.*)$/`. -/
def orderedMatch (l : Str) : Option Str :=
  match l.drop (l.takeWhile (fun c => c.isDigit)).length with
  | '.' :: rest =>
    if (l.takeWhile (fun c => c.isDigit)) ≠ [] ∧ headWS rest then
      some (rest.dropWhile isWS)
    else none
  | _ => none

/-- `ParsedBlock` of `src/components/Chat.tsx` lines 14-17. -/
inductive ParsedBlock
  | heading (text : Str)
  | paragraph (text : Str)
  | list (items : List Str)
deriving DecidableEq

/-- The mutable state of `parseAssistantContent`: the emitted blocks, the
open paragraph lines and the open list items (`currentList`). -/
structure ParseState where
  blocks : List ParsedBlock := []
  para : List Str := []
  listAcc : Option (List Str) := none

/-- `flushParagraph` of `parseAssistantContent` (lines 31-36): a non-empty
paragraph accumulation is emitted joined with single spaces; note that no
`stripEmphasis` is applied to paragraph text. -/
def flushPara (st : ParseState) : ParseState :=
  if st.para = [] then st
  else
    { st with
      blocks := st.blocks ++
        [ParsedBlock.paragraph (List.intercalate ((" ").toList) st.para)],
      para := [] }

/-- `flushList` of `parseAssistantContent` (lines 38-43): a non-empty open
list is emitted with `stripEmphasis` applied to every item. -/
def flushList (st : ParseState) : ParseState :=
  match st.listAcc with
  | some items =>
    if items = [] then st
    else
      { st with
        blocks := st.blocks ++ [ParsedBlock.list (items.map stripEmphasis)],
        listAcc := none }
  | none => st

/-- The per-line step of `parseAssistantContent` (lines 45-82): a blank line
flushes paragraph then list; a heading flushes both and emits a heading with
`stripEmphasis` applied; a bullet or ordered-list line flushes the paragraph
and appends a (trimmed) item; any other line extends the last open list item
or accumulates into the paragraph. -/
def processLine (st : ParseState) (rawLine : Str) : ParseState :=
  if trim rawLine = [] then flushList (flushPara st)
  else
    match headingMatch (trim rawLine) with
    | some htext =>
      if stripEmphasis (trim htext) = [] then flushList (flushPara st)
      else
        { flushList (flushPara st) with
          blocks := (flushList (flushPara st)).blocks ++
            [ParsedBlock.heading (stripEmphasis (trim htext))] }
    | none =>
      match (bulletMatch (trim rawLine)).orElse (fun _ => orderedMatch (trim rawLine)) with
      | some item =>
        match (flushPara st).listAcc with
        | none => { flushPara st with listAcc := some [trim item] }
        | some items => { flushPara st with listAcc := some (items ++ [trim item]) }
      | none =>
        match st.listAcc with
        | some items =>
          { st with
            listAcc := some (items.dropLast ++
              [(items.getLast?.getD []) ++ (' ' :: trim rawLine)]) }
        | none => { st with para := st.para ++ [trim rawLine] }

/-- `parseAssistantContent` of `src/components/Chat.tsx` lines 24-88. -/
def parseAssistantContent (text : Str) : List ParsedBlock :=
  (flushList (flushPara ((splitLines text).foldl processLine {}))).blocks

end Sytha

namespace Sytha

lemma headWS_dropWhile (l : Str) : headWS (l.dropWhile isWS) = false := by
  induction l with
  | nil => rfl
  | cons c cs ih =>
    rw [List.dropWhile_cons]
    by_cases h : isWS c = true
    · simpa [h] using ih
    · simp only [h, if_false, headWS]
      simpa using h

lemma dropWhile_eq_self_of_headWS (l : Str) (h : headWS l = false) :
    l.dropWhile isWS = l := by
  cases l with
  | nil => rfl
  | cons c cs =>
    rw [List.dropWhile_cons]
    simp only [headWS] at h
    simp [h]

lemma headWS_append (x z : Str) (hx : x ≠ []) : headWS (x ++ z) = headWS x := by
  cases x with
  | nil => exact absurd rfl hx
  | cons c cs => rfl

/-- `dropWhile` yields a suffix: some prefix was removed. -/
lemma exists_dropWhile_eq (l : Str) : ∃ p, l = p ++ l.dropWhile isWS := by
  induction l with
  | nil => exact ⟨[], rfl⟩
  | cons c cs ih =>
    rw [List.dropWhile_cons]
    by_cases h : isWS c = true
    · obtain ⟨p, hp⟩ := ih
      exact ⟨c :: p, by simp [h, ← hp]⟩
    · exact ⟨[], by simp [h]⟩

lemma length_dropWhile_le_ws (l : Str) : (l.dropWhile isWS).length ≤ l.length := by
  obtain ⟨p, hp⟩ := exists_dropWhile_eq l
  conv_rhs => rw [hp]
  simp

lemma trim_length_le (l : Str) : (trim l).length ≤ l.length := by
  unfold trim
  calc (((l.reverse.dropWhile isWS).reverse).dropWhile isWS).length
      ≤ ((l.reverse.dropWhile isWS).reverse).length := length_dropWhile_le_ws _
    _ = (l.reverse.dropWhile isWS).length := by simp
    _ ≤ l.reverse.length := length_dropWhile_le_ws _
    _ = l.length := by simp

lemma headWS_trim (l : Str) : headWS (trim l) = false := headWS_dropWhile _

lemma lastWS_trim (l : Str) (h : trim l ≠ []) : headWS (trim l).reverse = false := by
  have hy : headWS (l.reverse.dropWhile isWS) = false := headWS_dropWhile _
  obtain ⟨p, hp⟩ := exists_dropWhile_eq ((l.reverse.dropWhile isWS).reverse)
  have htrim : trim l = ((l.reverse.dropWhile isWS).reverse).dropWhile isWS := rfl
  have h2 : l.reverse.dropWhile isWS = (trim l).reverse ++ p.reverse := by
    have h3 := congrArg List.reverse hp
    rw [List.reverse_reverse, List.reverse_append] at h3
    rw [h3, htrim]
  rw [h2, headWS_append _ _ (by simpa using h)] at hy
  exact hy

lemma trim_eq_self (l : Str) (h1 : headWS l = false) (h2 : headWS l.reverse = false) :
    trim l = l := by
  unfold trim
  rw [dropWhile_eq_self_of_headWS _ h2, List.reverse_reverse,
    dropWhile_eq_self_of_headWS _ h1]

lemma trim_trim (l : Str) : trim (trim l) = trim l := by
  by_cases h : trim l = []
  · rw [h]; rfl
  · exact trim_eq_self _ (headWS_trim l) (lastWS_trim l h)

lemma filter_dropWhile (l : Str) : (l.dropWhile isWS).filter nWS = l.filter nWS := by
  induction l with
  | nil => rfl
  | cons c cs ih =>
    rw [List.dropWhile_cons]
    by_cases h : isWS c = true
    · rw [if_pos h, ih, List.filter_cons]
      have hc : nWS c = false := by simp [nWS, h]
      simp [hc]
    · simp [h]

lemma filter_reverse_ws (l : Str) : l.reverse.filter nWS = (l.filter nWS).reverse := by
  induction l with
  | nil => rfl
  | cons c cs ih =>
    simp only [List.reverse_cons, List.filter_append, List.filter_cons, ih]
    cases h : nWS c <;> simp [h]

lemma filter_trim (l : Str) : (trim l).filter nWS = l.filter nWS := by
  unfold trim
  rw [filter_dropWhile, filter_reverse_ws, filter_dropWhile, filter_reverse_ws,
    List.reverse_reverse]

lemma chunkTextF_mem (maxChars fuel : Nat) :
    ∀ text : Str, ∀ c ∈ chunkTextF maxChars fuel text,
      c.length ≤ maxChars ∧ trim c ≠ [] := by
  induction fuel with
  | zero => intro text c hc; simp [chunkTextF] at hc
  | succ fuel ih =>
    intro text c hc
    cases text with
    | nil => simp [chunkTextF] at hc
    | cons a as =>
      rw [chunkTextF] at hc
      set w := trim ((a :: as).take maxChars) with hw
      by_cases hempty : w = []
      · rw [if_pos hempty] at hc
        exact ih _ c hc
      · rw [if_neg hempty] at hc
        rcases List.mem_cons.mp hc with h | h
        · rw [h]
          constructor
          · rw [hw]
            calc (trim ((a :: as).take maxChars)).length
                ≤ ((a :: as).take maxChars).length := trim_length_le _
              _ ≤ maxChars := by simp
          · rw [hw, trim_trim]
            exact hempty
        · exact ih _ c h

lemma chunkTextF_filter (maxChars fuel : Nat) (hM : 0 < maxChars) :
    ∀ text : Str, text.length ≤ fuel →
      (chunkTextF maxChars fuel text).flatten.filter nWS = text.filter nWS := by
  induction fuel with
  | zero =>
    intro text hlen
    have : text = [] := List.length_eq_zero.mp (Nat.le_zero.mp hlen)
    subst this; rfl
  | succ fuel ih =>
    intro text hlen
    cases text with
    | nil => rfl
    | cons a as =>
      rw [chunkTextF]
      have hdroplen : ((a :: as).drop maxChars).length ≤ fuel := by
        simp only [List.length_drop, List.length_cons] at hlen ⊢
        omega
      have hrest := ih ((a :: as).drop maxChars) hdroplen
      have hsplit : (a :: as).filter nWS =
          ((a :: as).take maxChars).filter nWS ++ ((a :: as).drop maxChars).filter nWS := by
        rw [← List.filter_append, List.take_append_drop]
      set w := trim ((a :: as).take maxChars) with hw
      by_cases hempty : w = []
      · rw [if_pos hempty]
        have htk : ((a :: as).take maxChars).filter nWS = [] := by
          rw [← filter_trim, ← hw, hempty]; rfl
        rw [hrest, hsplit, htk, List.nil_append]
      · rw [if_neg hempty]
        rw [List.flatten_cons, List.filter_append, hrest, hw, filter_trim, hsplit]

/-- Claim C1: for every text `T` and every `maxChars M > 0`, the fixed-window
chunker `chunkText` of `src/lib/upload.ts` produces only chunks of length at
most `M`, none of which is empty after trimming, and concatenating the chunks
in order reproduces exactly the non-whitespace characters of `T` in their
original order. -/
theorem chunkText_spec (T : Str) (M : Nat) (hM : 0 < M) :
    (∀ c ∈ chunkText T M, c.length ≤ M ∧ trim c ≠ []) ∧
      (chunkText T M).flatten.filter nWS = T.filter nWS := by
  constructor
  · exact chunkTextF_mem M T.length T
  · exact chunkTextF_filter M T.length hM T (Nat.le_refl _)

/-- Witness for C1 at the concrete input `"ab cd ef"` with `maxChars = 3`. -/
theorem chunkText_spec_witness :
    0 < 3 ∧
      ((∀ c ∈ chunkText ("ab cd ef".toList) 3, c.length ≤ 3 ∧ trim c ≠ []) ∧
        (chunkText ("ab cd ef".toList) 3).flatten.filter nWS =
          ("ab cd ef".toList).filter nWS) :=
  ⟨by decide, chunkText_spec ("ab cd ef".toList) 3 (by decide)⟩

lemma splitOnSpace_ne_nil (l : Str) : splitOnSpace l ≠ [] := by
  cases l with
  | nil => simp [splitOnSpace]
  | cons c rest =>
    rw [splitOnSpace]
    by_cases h : c = ' '
    · simp [h]
    · rw [if_neg h]
      cases hs : splitOnSpace rest <;> simp

lemma noSpace_of_mem_splitOnSpace : ∀ l : Str, ∀ w ∈ splitOnSpace l, ' ' ∉ w := by
  intro l
  induction l with
  | nil =>
    intro w hw
    simp only [splitOnSpace, List.mem_singleton] at hw
    rw [hw]; simp
  | cons c rest ih =>
    intro w hw
    rw [splitOnSpace] at hw
    by_cases h : c = ' '
    · rw [if_pos h] at hw
      rcases List.mem_cons.mp hw with h1 | h1
      · rw [h1]; simp
      · exact ih w h1
    · rw [if_neg h] at hw
      cases hs : splitOnSpace rest with
      | nil => exact absurd hs (splitOnSpace_ne_nil rest)
      | cons w0 ws =>
        rw [hs] at hw
        rcases List.mem_cons.mp hw with h1 | h1
        · rw [h1]
          intro hmem
          rcases List.mem_cons.mp hmem with h2 | h2
          · exact h h2.symm
          · exact ih w0 (hs ▸ List.mem_cons_self _ _) h2
        · exact ih w (hs ▸ List.mem_cons_of_mem _ h1)

lemma splitOnSpace_self (l : Str) (h : ' ' ∉ l) : splitOnSpace l = [l] := by
  induction l with
  | nil => rfl
  | cons c rest ih =>
    have hc : ¬ c = ' ' := by rintro rfl; exact h (List.mem_cons_self _ _)
    have hrest : ' ' ∉ rest := fun hm => h (List.mem_cons_of_mem _ hm)
    rw [splitOnSpace, if_neg hc, ih hrest]

lemma splitOnSpace_append (a b : Str) (h : ' ' ∉ a) :
    splitOnSpace (a ++ ' ' :: b) = a :: splitOnSpace b := by
  induction a with
  | nil => simp [splitOnSpace]
  | cons c a2 ih =>
    have hc : ¬ c = ' ' := by rintro rfl; exact h (List.mem_cons_self _ _)
    have ha2 : ' ' ∉ a2 := fun hm => h (List.mem_cons_of_mem _ hm)
    rw [List.cons_append, splitOnSpace, if_neg hc, ih ha2]

lemma joinWords_cons_cons (w v : Str) (vs : List Str) :
    joinWords (w :: v :: vs) = w ++ ' ' :: joinWords (v :: vs) := rfl

lemma joinWords_ne_nil (cws : List Str) (h : cws ≠ []) (hw : ∀ w ∈ cws, w ≠ []) :
    joinWords cws ≠ [] := by
  match cws with
  | [] => exact absurd rfl h
  | [w] => exact hw w (List.mem_cons_self _ _)
  | w :: v :: vs =>
    rw [joinWords_cons_cons]
    simp

lemma joinWords_append_single : ∀ (ws : List Str) (w : Str), ws ≠ [] →
    joinWords (ws ++ [w]) = joinWords ws ++ ' ' :: w := by
  intro ws
  induction ws with
  | nil => intro w h; exact absurd rfl h
  | cons x rest ih =>
    intro w _
    cases rest with
    | nil => rfl
    | cons y ys =>
      have ih2 := ih w (by simp)
      rw [List.cons_append] at ih2
      rw [List.cons_append, List.cons_append, joinWords_cons_cons, ih2,
        joinWords_cons_cons]
      simp [List.append_assoc]

lemma headWS_joinWords (w : Str) (ws : List Str) (hw : w ≠ []) :
    headWS (joinWords (w :: ws)) = headWS w := by
  cases ws with
  | nil => rfl
  | cons v vs => rw [joinWords_cons_cons]; exact headWS_append _ _ hw

lemma lastWS_joinWords : ∀ cws : List Str, cws ≠ [] →
    (∀ w ∈ cws, w ≠ [] ∧ headWS w.reverse = false) →
    headWS (joinWords cws).reverse = false := by
  intro cws
  induction cws with
  | nil => intro h _; exact absurd rfl h
  | cons w rest ih =>
    intro _ hg
    cases rest with
    | nil => exact (hg w (List.mem_cons_self _ _)).2
    | cons v vs =>
      have hne : joinWords (v :: vs) ≠ [] :=
        joinWords_ne_nil _ (by simp) (fun x hx => (hg x (List.mem_cons_of_mem _ hx)).1)
      rw [joinWords_cons_cons, List.reverse_append, List.reverse_cons,
        headWS_append _ _ (by simp), headWS_append _ _ (by simpa using hne)]
      exact ih (by simp) (fun x hx => hg x (List.mem_cons_of_mem _ hx))

lemma splitOnSpace_joinWords : ∀ cws : List Str, cws ≠ [] →
    (∀ w ∈ cws, ' ' ∉ w) → splitOnSpace (joinWords cws) = cws := by
  intro cws
  induction cws with
  | nil => intro h _; exact absurd rfl h
  | cons w rest ih =>
    intro _ hns
    cases rest with
    | nil => exact splitOnSpace_self w (hns w (List.mem_cons_self _ _))
    | cons v vs =>
      rw [joinWords_cons_cons, splitOnSpace_append _ _ (hns w (List.mem_cons_self _ _)),
        ih (by simp) (fun x hx => hns x (List.mem_cons_of_mem _ hx))]

lemma trim_joinWords (cws : List Str) (h : cws ≠ []) (hg : ∀ w ∈ cws, goodWord w) :
    trim (joinWords cws) = joinWords cws := by
  cases cws with
  | nil => exact absurd rfl h
  | cons w rest =>
    apply trim_eq_self
    · rw [headWS_joinWords w rest (hg w (List.mem_cons_self _ _)).1]
      exact (hg w (List.mem_cons_self _ _)).2.2.1
    · exact lastWS_joinWords _ (by simp) (fun x hx => ⟨(hg x hx).1, (hg x hx).2.2.2⟩)

lemma wordChunkLoop_le (M : Nat) : ∀ (ws : List Str) (cur : Str),
    (∀ w ∈ ws, w.length ≤ M) → cur.length ≤ M →
    ∀ c ∈ wordChunkLoop M ws cur, c.length ≤ M := by
  intro ws
  induction ws with
  | nil =>
    intro cur _ hcur c hc
    rw [wordChunkLoop] at hc
    by_cases h : trim cur = []
    · rw [if_pos h] at hc; simp at hc
    · rw [if_neg h] at hc
      rw [List.mem_singleton.mp hc]
      exact Nat.le_trans (trim_length_le cur) hcur
  | cons w ws ih =>
    intro cur hws hcur c hc
    have hws2 : ∀ x ∈ ws, x.length ≤ M := fun x hx => hws x (List.mem_cons_of_mem _ hx)
    have hwM : w.length ≤ M := hws w (List.mem_cons_self _ _)
    rw [wordChunkLoop] at hc
    by_cases hcond : M < cur.length + 1 + w.length ∧ 0 < cur.length
    · rw [if_pos hcond] at hc
      rcases List.mem_cons.mp hc with h1 | h1
      · rw [h1]; exact Nat.le_trans (trim_length_le cur) hcur
      · exact ih w hws2 hwM c h1
    · rw [if_neg hcond] at hc
      by_cases hnil : cur = []
      · rw [if_pos hnil] at hc
        exact ih w hws2 hwM c hc
      · rw [if_neg hnil] at hc
        have hpos : 0 < cur.length := List.length_pos.mpr hnil
        have hle : ¬ M < cur.length + 1 + w.length := fun hA => hcond ⟨hA, hpos⟩
        refine ih (cur ++ ' ' :: w) hws2 ?_ c hc
        simp only [List.length_append, List.length_cons]
        omega

lemma wordChunkLoop_words (M : Nat) : ∀ ws cws : List Str,
    (∀ w ∈ ws, goodWord w) → (∀ w ∈ cws, goodWord w) →
    ((wordChunkLoop M ws (joinWords cws)).map splitOnSpace).flatten = cws ++ ws := by
  intro ws
  induction ws with
  | nil =>
    intro cws _ hg
    cases cws with
    | nil => rfl
    | cons w rest =>
      have hjw : joinWords (w :: rest) ≠ [] :=
        joinWords_ne_nil _ (by simp) (fun x hx => (hg x hx).1)
      have htr : trim (joinWords (w :: rest)) = joinWords (w :: rest) :=
        trim_joinWords _ (by simp) hg
      rw [wordChunkLoop, if_neg (by rw [htr]; exact hjw), htr]
      simp only [List.map_cons, List.map_nil, List.flatten_cons, List.flatten_nil,
        List.append_nil]
      exact splitOnSpace_joinWords _ (by simp) (fun x hx => (hg x hx).2.1)
  | cons w ws ih =>
    intro cws hws hg
    have hgw : goodWord w := hws w (List.mem_cons_self _ _)
    have hws2 : ∀ x ∈ ws, goodWord x := fun x hx => hws x (List.mem_cons_of_mem _ hx)
    have ihw := ih [w] hws2 (by
      intro x hx
      rw [List.mem_singleton.mp hx]
      exact hgw)
    rw [show joinWords [w] = w from rfl] at ihw
    rw [wordChunkLoop]
    by_cases hcond : M < (joinWords cws).length + 1 + w.length ∧ 0 < (joinWords cws).length
    · rw [if_pos hcond]
      have hcws : cws ≠ [] := by
        intro h
        rw [h] at hcond
        simp [joinWords] at hcond
      have htr : trim (joinWords cws) = joinWords cws := trim_joinWords _ hcws hg
      rw [List.map_cons, List.flatten_cons, htr,
        splitOnSpace_joinWords _ hcws (fun x hx => (hg x hx).2.1), ihw]
      simp
    · rw [if_neg hcond]
      by_cases hnil : joinWords cws = []
      · have hcws : cws = [] := by
          by_contra hne
          exact (joinWords_ne_nil cws hne (fun x hx => (hg x hx).1)) hnil
        rw [if_pos hnil, hcws]
        simpa using ihw
      · rw [if_neg hnil]
        have hcws : cws ≠ [] := by intro h; rw [h] at hnil; exact hnil rfl
        rw [show joinWords cws ++ ' ' :: w = joinWords (cws ++ [w]) from
          (joinWords_append_single cws w hcws).symm]
        have ihall := ih (cws ++ [w]) hws2 (by
          intro x hx
          rcases List.mem_append.mp hx with h1 | h1
          · exact hg x h1
          · rw [List.mem_singleton.mp h1]; exact hgw)
        rw [ihall]
        simp

/-- Claim C4 counterexample: for the text `"aaaaaa"` and `maxChars = 3 > 0`,
the word-aware chunker produces the single chunk `"aaaaaa"` of length `6 > 3`,
so not every chunk has length at most `maxChars`. -/
theorem wordChunk_oversize_counterexample :
    chunkSectionText ("aaaaaa".toList) 3 = [("aaaaaa".toList)] ∧
      3 < (("aaaaaa".toList) : Str).length := by decide

/-- Claim C4 (amended): every chunk produced by the word-aware chunking
variant has length at most `maxChars`, provided every space-delimited word of
the input text has length at most `maxChars`; a single word longer than
`maxChars` becomes its own chunk of that word's length. -/
theorem chunkSectionText_le (text : Str) (M : Nat)
    (hw : ∀ w ∈ splitOnSpace text, w.length ≤ M) :
    ∀ c ∈ chunkSectionText text M, c.length ≤ M := by
  intro c hc
  unfold chunkSectionText at hc
  by_cases h : text.length ≤ M
  · rw [if_pos h] at hc
    rw [List.mem_singleton.mp hc]
    exact h
  · rw [if_neg h] at hc
    exact wordChunkLoop_le M (splitOnSpace text) [] hw (by simp) c hc

/-- Witness for the amended C4 at the input `"a bb c"` with `maxChars = 2`. -/
theorem chunkSectionText_le_witness :
    (∀ w ∈ splitOnSpace ("a bb c".toList), w.length ≤ 2) ∧
      (∀ c ∈ chunkSectionText ("a bb c".toList) 2, c.length ≤ 2) :=
  ⟨by decide, chunkSectionText_le _ 2 (by decide)⟩

/-- Claim C5 counterexample: in the text `"aa \nbb"` with `maxChars = 3`, the
space-delimited word `"\nbb"` is a word of the source, yet the produced chunks
are `["aa", "bb"]` and neither contains `"\nbb"`: the leading newline of the
word was trimmed away at a chunk boundary, so the word does not appear whole
in any chunk. -/
theorem wordChunk_trimmedWord_counterexample :
    splitOnSpace ("aa \nbb".toList) = [("aa".toList), ("\nbb".toList)] ∧
      chunkSectionText ("aa \nbb".toList) 3 = [("aa".toList), ("bb".toList)] ∧
      occursIn ("\nbb".toList) ("aa".toList) = false ∧
      occursIn ("\nbb".toList) ("bb".toList) = false := by decide

/-- Claim C5 (amended): when every space-delimited word of the text is
non-empty and neither starts nor ends with whitespace, the word-aware chunker
never splits or alters a word: splitting the chunks back on spaces and
concatenating yields exactly the source's word sequence, so every word
appears whole inside exactly one chunk, in order.  Words with leading or
trailing non-space whitespace may lose that whitespace when they fall at a
chunk boundary. -/
theorem chunkSectionText_words (text : Str) (M : Nat)
    (hw : ∀ w ∈ splitOnSpace text, goodWord w) :
    ((chunkSectionText text M).map splitOnSpace).flatten = splitOnSpace text := by
  unfold chunkSectionText
  by_cases h : text.length ≤ M
  · rw [if_pos h]; simp
  · rw [if_neg h]
    have hmain := wordChunkLoop_words M (splitOnSpace text) [] hw (by simp)
    simpa [joinWords] using hmain

/-- Witness for the amended C5 at the input `"IPC - Section 378: Theft"` with
`maxChars = 10`. -/
theorem chunkSectionText_words_witness :
    (∀ w ∈ splitOnSpace ("IPC - Section 378: Theft".toList), goodWord w) ∧
      ((chunkSectionText ("IPC - Section 378: Theft".toList) 10).map
        splitOnSpace).flatten = splitOnSpace ("IPC - Section 378: Theft".toList) :=
  ⟨by decide, chunkSectionText_words _ 10 (by decide)⟩

lemma toBatchesF_flatten (k : Nat) (hk : 0 < k) :
    ∀ (fuel : Nat) (l : List α), l.length ≤ fuel → (toBatchesF k fuel l).flatten = l := by
  intro fuel
  induction fuel with
  | zero =>
    intro l hl
    have h0 : l = [] := List.length_eq_zero.mp (Nat.le_zero.mp hl)
    rw [h0]; rfl
  | succ fuel ih =>
    intro l hl
    cases l with
    | nil => rfl
    | cons a as =>
      have hd : ((a :: as).drop k).length ≤ fuel := by
        simp only [List.length_drop, List.length_cons] at hl ⊢
        omega
      rw [toBatchesF, List.flatten_cons, ih _ hd, List.take_append_drop]

lemma toBatchesF_ne_nil (k : Nat) (hk : 0 < k) :
    ∀ (fuel : Nat) (l : List α), ∀ b ∈ toBatchesF k fuel l, b ≠ [] := by
  intro fuel
  induction fuel with
  | zero => intro l b hb; simp [toBatchesF] at hb
  | succ fuel ih =>
    intro l b hb
    cases l with
    | nil => simp [toBatchesF] at hb
    | cons a as =>
      rw [toBatchesF] at hb
      rcases List.mem_cons.mp hb with h | h
      · rw [h]
        cases k with
        | zero => omega
        | succ k2 => simp
      · exact ih _ b h

lemma indexLoopRoute_eq (fe fu : Nat → Bool) : ∀ (bs : List (List α)) (n : Nat),
    indexLoopRoute fe fu n bs = succSumFrom fe fu n bs := by
  intro bs
  induction bs with
  | nil => intro n; rfl
  | cons b bs ih =>
    intro n
    simp only [indexLoopRoute, succSumFrom, ih]
    by_cases h : (fe n || fu n) = true
    · simp [h]
    · simp [h]

lemma uploadLoop_fst_eq (fe fu : Nat → Bool) : ∀ (bs : List (List α)) (n : Nat),
    (uploadLoop fe fu n bs).1 = succSumFrom fe fu n bs := by
  intro bs
  induction bs with
  | nil => intro n; rfl
  | cons b bs ih =>
    intro n
    simp only [uploadLoop, succSumFrom, ← ih (n + 1)]
    by_cases h1 : fe n = true
    · simp [h1]
    · by_cases h2 : fu n = true
      · simp [h1, h2]
      · simp [h1, h2]

lemma indexLoopScript_eq (fe fu : Nat → Bool) : ∀ (bs : List (List α)) (n : Nat),
    indexLoopScript fe fu n bs =
      (match firstFailFrom fe fu n bs with
       | some j => Except.error j
       | none => Except.ok (succSumFrom fe fu n bs)) := by
  intro bs
  induction bs with
  | nil => intro n; rfl
  | cons b bs ih =>
    intro n
    by_cases h : (fe n || fu n) = true
    · simp [indexLoopScript, firstFailFrom, succSumFrom, h]
    · simp only [indexLoopScript, firstFailFrom, succSumFrom, h, if_neg, Bool.false_eq_true,
        not_false_eq_true, if_false]
      rw [ih (n + 1)]
      cases hf : firstFailFrom fe fu (n + 1) bs with
      | none => rfl
      | some j => rfl

lemma uploadLoop_spec (fe fu : Nat → Bool) : ∀ (bs : List (List α)) (n : Nat),
    (∀ b ∈ bs, b ≠ []) →
    (uploadLoop fe fu n bs).1 ≤ bs.flatten.length ∧
      ((uploadLoop fe fu n bs).2.1 = [] ↔ (uploadLoop fe fu n bs).1 = bs.flatten.length) := by
  intro bs
  induction bs with
  | nil => intro n _; simp [uploadLoop]
  | cons b bs ih =>
    intro n hne
    have hb : b ≠ [] := hne b (List.mem_cons_self _ _)
    have hbpos : 0 < b.length := List.length_pos.mpr hb
    have ihn := ih (n + 1) (fun x hx => hne x (List.mem_cons_of_mem _ hx))
    have hup := ihn.1
    have hiff := ihn.2
    simp only [uploadLoop, List.flatten_cons, List.length_append]
    by_cases h1 : fe n = true
    · simp only [h1, if_true]
      refine ⟨by omega, ?_⟩
      constructor
      · intro h; exact absurd h (by simp)
      · intro h; exfalso; omega
    · by_cases h2 : fu n = true
      · simp only [h1, h2, if_true, Bool.false_eq_true, if_false]
        refine ⟨by omega, ?_⟩
        constructor
        · intro h; exact absurd h (by simp)
        · intro h; exfalso; omega
      · simp only [h1, h2, Bool.false_eq_true, if_false]
        refine ⟨by omega, ?_⟩
        rw [hiff]
        constructor
        · intro h; omega
        · intro h; omega

/-- Claim C2 counterexample: with three one-document batches
(`batchSize = 1`) and the embedding call of batch 1 (0-based) failing, the
CLI indexing script `indexToPinecone` aborts with the rethrown error of
batch 1 instead of continuing and reporting `totalIndexed = 2` for the two
successful batches: a single batch failure does abort this bulk-ingestion
run. -/
theorem indexScript_abort_counterexample :
    indexToPineconeScript (fun n => n == 1) (fun _ => false)
        [(⟨("1").toList, ("t1").toList⟩ : UploadedDoc),
          ⟨("2").toList, ("t2").toList⟩, ⟨("3").toList, ("t3").toList⟩] 1 =
      Except.error 1 ∧
    indexToPineconeScript (fun n => n == 1) (fun _ => false)
        [(⟨("1").toList, ("t1").toList⟩ : UploadedDoc),
          ⟨("2").toList, ("t2").toList⟩, ⟨("3").toList, ("t3").toList⟩] 1 ≠
      Except.ok 2 := by decide

/-- Claim C2 (amended): when a batch's embedding or upsert call fails during
bulk ingestion, the indexing route of `src/unnamed/part_001` and
`uploadDocumentsToPinecone` of `src/lib/upload.ts` log/record the failure and
continue with the next batch, reporting as `totalIndexed` (respectively
`uploadedChunks`) exactly the total size of the successful batches, which may
be less than the number of chunks; the CLI script `indexToPinecone` of
`src/scripts/index-legal-docs.ts`, however, rethrows and aborts the run at
its first failing batch. -/
theorem batch_failure_partial_success (fe fu : Nat → Bool) (chunks : List UploadedDoc)
    (k : Nat) (hk : 0 < k) :
    indexChunksRoute fe fu chunks k = successfulBatchSum fe fu chunks k ∧
      (uploadDocumentsToPinecone fe fu chunks k).1.uploadedChunks =
        successfulBatchSum fe fu chunks k ∧
      indexToPineconeScript fe fu chunks k =
        (match firstFailFrom fe fu 0 (toBatches k chunks) with
         | some j => Except.error j
         | none => Except.ok (successfulBatchSum fe fu chunks k)) := by
  refine ⟨indexLoopRoute_eq fe fu _ 0, ?_, indexLoopScript_eq fe fu _ 0⟩
  unfold uploadDocumentsToPinecone
  by_cases h : chunks = []
  · rw [if_pos h, h]
    rfl
  · rw [if_neg h]
    exact uploadLoop_fst_eq fe fu _ 0

/-- Concrete three-document input used to exercise Claim C2's amended
theorem. -/
def sampleDocs : List UploadedDoc :=
  [⟨("1").toList, ("t1").toList⟩, ⟨("2").toList, ("t2").toList⟩,
    ⟨("3").toList, ("t3").toList⟩]

/-- Witness for the amended C2 with `batchSize = 1` and the embedding of
batch 1 failing. -/
theorem batch_failure_partial_success_witness :
    0 < 1 ∧
      (indexChunksRoute (fun n => n == 1) (fun _ => false) sampleDocs 1 =
          successfulBatchSum (fun n => n == 1) (fun _ => false) sampleDocs 1 ∧
        (uploadDocumentsToPinecone (fun n => n == 1) (fun _ => false) sampleDocs 1).1.uploadedChunks =
          successfulBatchSum (fun n => n == 1) (fun _ => false) sampleDocs 1 ∧
        indexToPineconeScript (fun n => n == 1) (fun _ => false) sampleDocs 1 =
          (match firstFailFrom (fun n => n == 1) (fun _ => false) 0 (toBatches 1 sampleDocs) with
           | some j => Except.error j
           | none =>
             Except.ok (successfulBatchSum (fun n => n == 1) (fun _ => false) sampleDocs 1))) :=
  ⟨by decide, batch_failure_partial_success _ _ sampleDocs 1 (by decide)⟩

/-- Claim C10: `uploadDocumentsToPinecone` reports at most `docs.length`
uploaded chunks; its `errors` field is absent exactly when every batch
succeeded, i.e. exactly when `uploadedChunks` equals the input length; and an
empty input yields zero uploads, no `errors` field and no external call. -/
theorem uploadDocumentsToPinecone_spec (fe fu : Nat → Bool) (docs : List UploadedDoc)
    (k : Nat) (hk : 0 < k) :
    (uploadDocumentsToPinecone fe fu docs k).1.uploadedChunks ≤ docs.length ∧
      ((uploadDocumentsToPinecone fe fu docs k).1.errors = none ↔
        (uploadDocumentsToPinecone fe fu docs k).1.uploadedChunks = docs.length) ∧
      (docs = [] → uploadDocumentsToPinecone fe fu docs k = (⟨0, none⟩, [])) := by
  by_cases h : docs = []
  · rw [h]
    simp [uploadDocumentsToPinecone]
  · have hflat : (toBatches k docs).flatten = docs :=
      toBatchesF_flatten k hk docs.length docs (Nat.le_refl _)
    have hne : ∀ b ∈ toBatches k docs, b ≠ [] :=
      toBatchesF_ne_nil k hk docs.length docs
    have hspec := uploadLoop_spec fe fu (toBatches k docs) 0 hne
    rw [hflat] at hspec
    unfold uploadDocumentsToPinecone
    rw [if_neg h]
    refine ⟨hspec.1, ?_, fun hc => absurd hc h⟩
    by_cases he : (uploadLoop fe fu 0 (toBatches k docs)).2.1 = []
    · rw [if_pos he]
      constructor
      · intro _; exact hspec.2.mp he
      · intro _; rfl
    · rw [if_neg he]
      constructor
      · intro hnone; exact absurd hnone (by simp)
      · intro heq; exact absurd (hspec.2.mpr heq) he

/-- Witness for C10 at a one-document input with `batchSize = 2` and no
failures. -/
theorem uploadDocumentsToPinecone_spec_witness :
    0 < 2 ∧
      ((uploadDocumentsToPinecone (fun _ => false) (fun _ => false)
          [⟨("a").toList, ("x").toList⟩] 2).1.uploadedChunks ≤
          ([⟨("a").toList, ("x").toList⟩] : List UploadedDoc).length ∧
        ((uploadDocumentsToPinecone (fun _ => false) (fun _ => false)
            [⟨("a").toList, ("x").toList⟩] 2).1.errors = none ↔
          (uploadDocumentsToPinecone (fun _ => false) (fun _ => false)
            [⟨("a").toList, ("x").toList⟩] 2).1.uploadedChunks =
            ([⟨("a").toList, ("x").toList⟩] : List UploadedDoc).length) ∧
        (([⟨("a").toList, ("x").toList⟩] : List UploadedDoc) = [] →
          uploadDocumentsToPinecone (fun _ => false) (fun _ => false)
            [⟨("a").toList, ("x").toList⟩] 2 = (⟨0, none⟩, []))) :=
  ⟨by decide, uploadDocumentsToPinecone_spec _ _ _ 2 (by decide)⟩

/-- Claim C9: `embedTexts` applied to the empty list returns the empty
embedding list and performs no external call, whatever the service oracle
would answer and whether or not it would throw. -/
theorem embedTexts_empty (embedThrows : Bool) (svc : List Str → List Vec) :
    embedTexts embedThrows svc [] = (.ok [], []) := rfl

/-- Claim C6: for a non-empty (after trimming) question with Pinecone
configured, when the vector index returns zero matches — or, more generally,
when none of the returned matches carries usable text — `answerLegalQuestion`
returns (never throws) the `ChatResult` with empty sources whose answer is
the fixed message, and that fixed message contains the words
`"could not find"`. -/
theorem answer_no_matches (env : RagEnv) (q : Str)
    (hq : trim q ≠ []) (hc : env.pineconeConfigured = true)
    (hm : (env.queryMatches.map docOfMatch).filter (fun d => !d.text.isEmpty) = []) :
    (answerLegalQuestion env q).1 = .ok ⟨couldNotFindMsg, []⟩ ∧
      occursIn (("could not find").toList) couldNotFindMsg = true := by
  constructor
  · by_cases het : env.embedThrows = true
    · simp [answerLegalQuestion, retrieveWithPinecone, embedTexts, hq, hc, het]
    · cases hh : (env.embedSvc [trim q]).head? with
      | none =>
        simp [answerLegalQuestion, retrieveWithPinecone, embedTexts, hq, hc, het, hh]
      | some v =>
        by_cases hqt : env.queryThrows = true
        · simp [answerLegalQuestion, retrieveWithPinecone, embedTexts, hq, hc, het, hh, hqt]
        · simp [answerLegalQuestion, retrieveWithPinecone, embedTexts, hq, hc, het, hh, hqt, hm]
  · decide

/-- Witness for C6: the question `"what is theft"` against a configured
environment whose index returns zero matches. -/
theorem answer_no_matches_witness :
    (trim (("what is theft").toList) ≠ [] ∧
        ({ pineconeConfigured := true } : RagEnv).pineconeConfigured = true ∧
        (({ pineconeConfigured := true } : RagEnv).queryMatches.map docOfMatch).filter
          (fun d => !d.text.isEmpty) = []) ∧
      ((answerLegalQuestion { pineconeConfigured := true } (("what is theft").toList)).1 =
          .ok ⟨couldNotFindMsg, []⟩ ∧
        occursIn (("could not find").toList) couldNotFindMsg = true) :=
  ⟨⟨by decide, rfl, rfl⟩, answer_no_matches _ _ (by decide) rfl rfl⟩

/-- Claim C3 counterexample: on the first request of a process
(`initialized = false`) with a valid environment and Pinecone configured, the
chat route handles the empty question by awaiting `ensureInitialized` first,
which performs a vector-index stats call before the question is rejected with
the 400 invalid-input response — so an external call (stats) is performed
while handling that empty-question request, contrary to the claim. -/
theorem emptyQuestion_stats_counterexample :
    chatRoutePOST false ⟨true, { pineconeConfigured := true }⟩ [] =
      (RouteOutcome.badRequest, [ExtCall.stats], true) ∧
      ExtCall.stats ∈ (chatRoutePOST false ⟨true, { pineconeConfigured := true }⟩ []).2.1 := by
  constructor
  · rfl
  · exact List.mem_cons_self _ _

/-- Claim C3 (amended): for an empty or whitespace-only question, the chat
entry point `answerLegalQuestion` itself throws the invalid-input error
having performed zero external calls, and the HTTP route (under a valid
environment) rejects the request with the 400 invalid-input response without
any embedding, query, upsert or completion call — but on the first request of
a process the route's one-time initialisation may first issue a single
vector-index stats call; once the latch is set, the route performs no
external call at all for such a request. -/
theorem emptyQuestion_rejected (init : Bool) (env : RouteEnv) (q : Str)
    (hq : trim q = []) (hv : env.envValid = true) :
    answerLegalQuestion env.rag q = (.error RagErr.emptyQuestion, []) ∧
      (chatRoutePOST init env q).1 = RouteOutcome.badRequest ∧
      (∀ c ∈ (chatRoutePOST init env q).2.1, c = ExtCall.stats) ∧
      (init = true → (chatRoutePOST init env q).2.1 = []) := by
  have hans : answerLegalQuestion env.rag q = (.error RagErr.emptyQuestion, []) := by
    unfold answerLegalQuestion
    rw [if_pos hq]
  have hbody : ∀ ic, chatRouteBody env q ic = (.badRequest, ic, true) := by
    intro ic
    unfold chatRouteBody
    rw [if_pos (Or.inr hq)]
  have hroute : chatRoutePOST init env q =
      (RouteOutcome.badRequest, (if init then [] else initLegalIndexCalls env.rag), true) := by
    cases init with
    | true =>
      show chatRouteBody env q [] = _
      rw [hbody]
      simp
    | false =>
      unfold chatRoutePOST
      rw [if_neg (by simp), hv, if_neg (by simp), hbody]
      simp
  refine ⟨hans, ?_, ?_, ?_⟩
  · rw [hroute]
  · rw [hroute]
    intro c hcm
    cases init with
    | true => simp at hcm
    | false =>
      rw [if_neg (by simp)] at hcm
      unfold initLegalIndexCalls at hcm
      by_cases hp : env.rag.pineconeConfigured = true
      · rw [if_pos hp] at hcm
        simpa using hcm
      · rw [if_neg hp] at hcm
        simp at hcm
  · intro hinit
    subst hinit
    rw [hroute]
    simp

/-- Witness for the amended C3: the whitespace-only question `"   "` against
an initialised route with a valid environment. -/
theorem emptyQuestion_rejected_witness :
    (trim (("   ").toList) = [] ∧
        (⟨true, { pineconeConfigured := false }⟩ : RouteEnv).envValid = true) ∧
      (answerLegalQuestion (⟨true, { pineconeConfigured := false }⟩ : RouteEnv).rag
          (("   ").toList) = (.error RagErr.emptyQuestion, []) ∧
        (chatRoutePOST true ⟨true, { pineconeConfigured := false }⟩ (("   ").toList)).1 =
          RouteOutcome.badRequest ∧
        (chatRoutePOST true ⟨true, { pineconeConfigured := false }⟩ (("   ").toList)).2.1 = []) :=
  ⟨⟨by decide, rfl⟩,
    (emptyQuestion_rejected true _ _ (by decide) rfl).1,
    (emptyQuestion_rejected true _ _ (by decide) rfl).2.1,
    (emptyQuestion_rejected true _ _ (by decide) rfl).2.2.2 rfl⟩

/-- Claim C7 counterexample: for the retrieved document with metadata act
`"IPC"`, section `"378"` and title `"Theft"`, the Answer Composer joins the
header parts with `" - "`, so the assembled context block reads
`"IPC - Section 378 - Theft"`; the substring `"IPC - Section 378: Theft"`
(with a colon, as the claim states it) does not occur anywhere in the context
block, so in particular it is not immediately followed by the document
text. -/
theorem contextHeader_colon_counterexample :
    occursIn (("IPC - Section 378: Theft").toList)
      (assembleContext [docOfMatch theftMatch]) = false := by decide

/-- Claim C7 (amended): for that document the assembled context block is
exactly the header `"IPC - Section 378 - Theft"` (parts joined with `" - "`,
no colon), followed by a blank line and then the document text; in particular
the context contains the header immediately followed by `"\n\n"` and the
text. -/
theorem contextHeader_joined :
    assembleContext [docOfMatch theftMatch] =
      (("IPC - Section 378 - Theft\n\nWhoever, intending to take dishonestly...").toList) ∧
      occursIn
        (("IPC - Section 378 - Theft\n\nWhoever, intending to take dishonestly...").toList)
        (assembleContext [docOfMatch theftMatch]) = true := by decide

/-- Claim C8 evaluated at its failing input: parsing
`"**bold** and *italic*"` yields exactly one paragraph block, but the
paragraph text keeps the emphasis markers because `flushParagraph` never
applies `stripEmphasis` (only heading and list-item text are stripped) —
while the formatter's own `stripEmphasis`, had it been applied, would reduce
the text to `"bold and italic"` exactly as the claim states. -/
theorem paragraph_emphasis_retained :
    parseAssistantContent (("**bold** and *italic*").toList) =
      [ParsedBlock.paragraph (("**bold** and *italic*").toList)] ∧
      stripEmphasis (("**bold** and *italic*").toList) = ("bold and italic").toList := by
  decide

end Sytha
